import Mathlib

/-!
# web-proxy: the LRU cache, the cacheability classifier and the freshness evaluator

A shallow embedding of `cache/cache.go` (`Cache.New`, `Get`, `Set`, `prune`,
`ItemIsFresh`) and of `isCacheable` from `proxy/proxy.go`, followed by the
properties of the specification stated over that embedding.

Modelling conventions

* A Go pointer `*CacheItem` is represented by the value it points to. The
  `listElement` handle of an item is represented by the item's position in the
  recency list.
* `map[string]*CacheItem` is an association list: `mapSet` overwrites the
  binding of a key, `mapDelete` removes it, `len` is the length of the list.
* `container/list.List` is a Lean list whose head is the front of the Go list.
* A Go function that may panic returns an `Outcome` with an explicit `panic`
  case; the library functions `http.ParseTime`, `http.NewRequest`,
  `http.Client.Do` and `time.Now` are read from an `Env`.
-/

namespace WebProxy

/-! ## Go standard library: `strings`, `strconv`, `net/http.Header` -/

/-- Go `strings.HasPrefix` on character lists: `p` is a prefix of `s`. -/
def hasPrefixChars : List Char → List Char → Bool
  | [], _ => true
  | _ :: _, [] => false
  | p :: ps, c :: cs => p == c && hasPrefixChars ps cs

/-- Go `strings.Contains` on character lists: `sub` occurs somewhere in `s`. -/
def containsChars (sub : List Char) : List Char → Bool
  | [] => hasPrefixChars sub []
  | c :: cs => hasPrefixChars sub (c :: cs) || containsChars sub cs

/-- Go `strings.Contains(s, substr)`. -/
def stringsContains (s substr : String) : Bool :=
  containsChars substr.data s.data

/-- Splitting a character list around every occurrence of the character `sep`. -/
def splitChars (sep : Char) : List Char → List (List Char)
  | [] => [[]]
  | c :: cs =>
    match splitChars sep cs with
    | [] => [[c]]
    | hd :: tl => if c = sep then [] :: hd :: tl else (c :: hd) :: tl

/-- Go `strings.Split(s, sep)` for a one-character separator, which is how both
call sites (`","` and `"="`) use it. -/
def stringsSplit (s : String) (sep : Char) : List String :=
  (splitChars sep s.data).map String.mk

/-- Go `unicode.IsSpace`. -/
def isSpace (c : Char) : Bool :=
  let n := c.toNat
  (9 ≤ n && n ≤ 13) || n = 32 || n = 0x85 || n = 0xA0 || n = 0x1680 ||
  (0x2000 ≤ n && n ≤ 0x200A) || n = 0x2028 || n = 0x2029 || n = 0x202F ||
  n = 0x205F || n = 0x3000

/-- Go `strings.TrimSpace`: leading and trailing white space removed. -/
def stringsTrimSpace (s : String) : String :=
  String.mk ((s.data.dropWhile isSpace).reverse.dropWhile isSpace).reverse

/-- Value of a run of decimal digits, most significant first. -/
def digitsValue (ds : List Char) : Nat :=
  ds.foldl (fun n c => n * 10 + (c.toNat - 48)) 0

/-- An ASCII decimal digit. -/
def isDigit (c : Char) : Bool := 48 ≤ c.toNat && c.toNat ≤ 57

/-- Go `strconv.Atoi` on a 64-bit platform: an optional sign followed by at
least one decimal digit, the value within `int64`; `none` stands for a non-nil
error (`ErrSyntax` or `ErrRange`). -/
def Atoi (s : String) : Option Int :=
  let signed : Bool × List Char :=
    match s.data with
    | '-' :: r => (true, r)
    | '+' :: r => (false, r)
    | cs => (false, cs)
  let ds := signed.2
  if ds.isEmpty || !ds.all isDigit then none
  else
    let v : Int := if signed.1 then -(digitsValue ds : Int) else (digitsValue ds : Int)
    if -(2 : Int) ^ 63 ≤ v ∧ v < (2 : Int) ^ 63 then some v else none

/-- Go `int64` addition: the sum reduced into `[-2^63, 2^63)`. -/
def addInt64 (a b : Int) : Int :=
  (a + b + 2 ^ 63) % 2 ^ 64 - 2 ^ 63

/-- The bytes `textproto` accepts in a header field name (token characters). -/
def validHeaderFieldChar (c : Char) : Bool :=
  let n := c.toNat
  (48 ≤ n && n ≤ 57) || (65 ≤ n && n ≤ 90) || (97 ≤ n && n ≤ 122) ||
  n = 33 || (35 ≤ n && n ≤ 39) || n = 42 || n = 43 || n = 45 || n = 46 ||
  n = 94 || n = 95 || n = 96 || n = 124 || n = 126

/-- The loop of Go `textproto.canonicalMIMEHeaderKey`: the first letter and
every letter after a hyphen upper-cased, the others lower-cased. -/
def canonicalChars : Bool → List Char → List Char
  | _, [] => []
  | upper, c :: cs =>
    let n := c.toNat
    let c1 : Char :=
      if upper && 97 ≤ n && n ≤ 122 then Char.ofNat (n - 32)
      else if !upper && 65 ≤ n && n ≤ 90 then Char.ofNat (n + 32)
      else c
    c1 :: canonicalChars (c1 = '-') cs

/-- Go `textproto.CanonicalMIMEHeaderKey`: a key holding a byte that is not a
token character is returned unchanged. -/
def CanonicalMIMEHeaderKey (key : String) : String :=
  if key.data.all validHeaderFieldChar then String.mk (canonicalChars true key.data) else key

/-- Go `http.Header`, a `map[string][]string` whose keys are in canonical form. -/
abbrev Header := List (String × List String)

/-- Go `Header.Get`: the first value stored under the canonical form of `key`,
the empty string when there is none. -/
def Header.Get (h : Header) (key : String) : String :=
  match h.lookup (CanonicalMIMEHeaderKey key) with
  | some (v :: _) => v
  | _ => ""

/-! ## `cache/cache.go`: the data model -/

/-- Go `http.Response`, the fields the proxy stores and reads. -/
structure Response where
  Status : String
  StatusCode : Int
  Proto : String
  Header : Header
  deriving DecidableEq, Repr

/-- Go `CacheItem` (without `listElement`, see the conventions above). -/
structure CacheItem where
  Key : String
  Packet : Response
  BodyBytes : List Nat
  deriving DecidableEq, Repr

/-- Go `Cache` (without the mutex). `list` has the most recently used item
first. -/
structure Cache where
  size : Int
  items : List (String × CacheItem)
  list : List CacheItem
  deriving DecidableEq, Repr

/-- Go `delete(m, key)`. -/
def mapDelete (m : List (String × CacheItem)) (key : String) : List (String × CacheItem) :=
  m.filter (fun p => p.1 != key)

/-- Go `m[key] = item`. -/
def mapSet (m : List (String × CacheItem)) (key : String) (item : CacheItem) :
    List (String × CacheItem) :=
  (key, item) :: mapDelete m key

/-- Go `cache.New(size)`. -/
def New (size : Int) : Cache :=
  { size := size, items := [], list := [] }

/-- Go `list.MoveToFront(item.listElement)`: nothing happens when the element
is not in the list. -/
def moveToFront (l : List CacheItem) (item : CacheItem) : List CacheItem :=
  if item ∈ l then item :: l.erase item else l

/-- Go `Cache.Get`: the cache afterwards and the item found (`none` is `nil`). -/
def Get (cache : Cache) (key : String) : Cache × Option CacheItem :=
  match cache.items.lookup key with
  | none => (cache, none)
  | some item => ({ cache with list := moveToFront cache.list item }, some item)

/-- Go `Cache.prune`: the tail of the list removed from list and map. -/
def prune (cache : Cache) : Cache :=
  match cache.list.getLast? with
  | none => cache
  | some tail =>
    { cache with list := cache.list.dropLast, items := mapDelete cache.items tail.Key }

/-- Go `Cache.Set`. -/
def Set (cache : Cache) (item : CacheItem) : Cache :=
  let cache1 := if (cache.list.length : Int) ≥ cache.size then prune cache else cache
  match cache1.items.lookup item.Key with
  | some cacheItem => { cache1 with list := moveToFront cache1.list cacheItem }
  | none =>
    { cache1 with list := item :: cache1.list, items := mapSet cache1.items item.Key item }

/-- One call on the cache. -/
inductive Op where
  | get (key : String)
  | set (item : CacheItem)
  deriving DecidableEq, Repr

/-- The cache after one call. -/
def step (cache : Cache) : Op → Cache
  | .get key => (Get cache key).1
  | .set item => Set cache item

/-- The cache after a sequence of calls. -/
def run (cache : Cache) (ops : List Op) : Cache :=
  ops.foldl step cache

/-- The keys of the recency list, most recently used first. -/
def Cache.keys (cache : Cache) : List String :=
  cache.list.map CacheItem.Key

/-- A response with no headers, as the tests of the cache build it. -/
def plainResponse : Response :=
  { Status := "200 OK", StatusCode := 200, Proto := "HTTP/1.0", Header := [] }

/-- An item with the given key and body over `plainResponse`. -/
def mkItem (key : String) (body : List Nat) : CacheItem :=
  { Key := key, Packet := plainResponse, BodyBytes := body }

/-! ## Well-formed caches -/

/-- The binding an item of the recency list has in the key map. -/
def entryOf (it : CacheItem) : String × CacheItem := (it.Key, it)

/-- The representation invariant of a cache of capacity `C`: keys occur once in
the recency list, the key map binds exactly the items of the list under their
keys, and the list is no longer than `C`. -/
structure Inv (C : Int) (c : Cache) : Prop where
  size_eq : c.size = C
  nodup : c.keys.Nodup
  perm : c.items.Perm (c.list.map entryOf)
  bound : (c.list.length : Int) ≤ C

/-- A second response, told apart from `plainResponse` by its status. -/
def notFoundResponse : Response :=
  { Status := "404 Not Found", StatusCode := 404, Proto := "HTTP/1.1", Header := [] }

/-! ## The recency order of a run, as the specification words it -/

/-- The keys of `log` without repetition, each kept at its first occurrence. -/
def distinctFirst : List String → List String
  | [] => []
  | k :: l => k :: (distinctFirst l).filter (fun x => x != k)

/-- The touches of a run that starts in `cache`, most recent first, added in
front of `log`: a `Set` touches its key, a `Get` touches its key when it hits. -/
def touchLog : Cache → List String → List Op → List String
  | _, log, [] => log
  | cache, log, .get key :: ops =>
    touchLog (step cache (.get key))
      (if (cache.items.lookup key).isSome then key :: log else log) ops
  | cache, log, .set item :: ops =>
    touchLog (step cache (.set item)) (item.Key :: log) ops

/-- The touches of a run from `cache`, most recent first. -/
def touched (cache : Cache) (ops : List Op) : List String :=
  touchLog cache [] ops

/-- The keys given to `Set` in a run, in call order. -/
def setKeys : List Op → List String
  | [] => []
  | .get _ :: ops => setKeys ops
  | .set item :: ops => item.Key :: setKeys ops

/-- No `Set` of the run from `cache` is applied to a key that is present while
the cache holds as many entries as its capacity. -/
def noSetOnPresentWhenFull : Cache → List Op → Bool
  | _, [] => true
  | cache, .get key :: ops => noSetOnPresentWhenFull (step cache (.get key)) ops
  | cache, .set item :: ops =>
    !(decide ((cache.items.length : Int) = cache.size) &&
        (cache.items.lookup item.Key).isSome) &&
      noSetOnPresentWhenFull (step cache (.set item)) ops

/-! ## `proxy/proxy.go`: `isCacheable` -/

/-- Go `isCacheable`. -/
def isCacheable (r : Response) : Bool :=
  let header := r.Header
  if Header.Get header "Cache-Control" ≠ "" then
    let cacheControl := Header.Get header "Cache-Control"
    if !stringsContains cacheControl "private" &&
        !stringsContains cacheControl "no-cache" &&
        !stringsContains cacheControl "no-store" &&
        !stringsContains cacheControl "max-age=0" &&
        stringsContains cacheControl "max-age" then
      true
    else
      false
  else if Header.Get header "Expires" ≠ "" then
    true
  else if Header.Get header "ETag" ≠ "" then
    true
  else if Header.Get header "Last-Modified" ≠ "" then
    true
  else
    false

/-- The specification's "max-age directive with a nonzero value": a
comma-separated element of the Cache-Control value that, white space around it
aside, reads `max-age=N` with `N` an integer other than zero. -/
def hasNonzeroMaxAge (cacheControl : String) : Bool :=
  (stringsSplit cacheControl ',').any fun el =>
    match stringsSplit (stringsTrimSpace el) '=' with
    | [name, value] =>
      name == "max-age" &&
        (match Atoi value with
         | some n => n != 0
         | none => false)
    | _ => false

/-- A response with the given headers. -/
def responseWith (header : Header) : Response :=
  { Status := "200 OK", StatusCode := 200, Proto := "HTTP/1.1", Header := header }

/-! ## `cache/cache.go`: `ItemIsFresh` -/

/-- Go `http.Request`, as `ItemIsFresh` builds it. -/
structure Request where
  Method : String
  URL : String
  Header : Header
  deriving DecidableEq, Repr

/-- Go `Header.Set`: the values under the canonical key replaced by `value`. -/
def Header.Set (h : Header) (key value : String) : Header :=
  (CanonicalMIMEHeaderKey key, [value]) ::
    h.filter (fun p => p.1 != CanonicalMIMEHeaderKey key)

/-- What `ItemIsFresh` reads from outside the program.
* `now` is `time.Now()` in nanoseconds since the Unix epoch;
* `ParseTime` is `http.ParseTime`, giving the Unix seconds of the date it
  parsed (HTTP dates have no fraction of a second), `none` for a non-nil error;
* `NewRequestOk method url` tells whether `http.NewRequest` returns no error;
* `Do` is `http.Client.Do`: the status code of the response, `none` when it
  returns an error and a nil response. -/
structure Env where
  now : Int
  ParseTime : String → Option Int
  NewRequestOk : String → String → Bool
  Do : Request → Option Int

/-- The errors `ItemIsFresh` returns. -/
inductive Err where
  | parseTime
  | atoi
  | newRequest
  deriving DecidableEq, Repr

/-- What a call of `ItemIsFresh` does: it panics, or returns `(fresh, err)`
with `err = none` for a nil error. -/
inductive Outcome where
  | panic
  | ret (fresh : Bool) (err : Option Err)
  deriving DecidableEq, Repr

/-- Go `time.Time.Unix` of a time given in nanoseconds: whole seconds, rounded
down. -/
def unixSeconds (t : Int) : Int := t / 1000000000

/-- The body of the `for _, val := range controlElements` loop of
`ItemIsFresh`: `some` is a `return` from inside the loop, `none` means the loop
ran to its end. -/
def maxAgeLoop (env : Env) (header : Header) : List String → Option Outcome
  | [] => none
  | val :: rest =>
    if stringsContains val "max-age" then
      match env.ParseTime (Header.Get header "Date") with
      | none => some (.ret false (some .parseTime))
      | some date =>
        match (stringsSplit val '=').get? 1 with
        | none => some .panic
        | some text =>
          match Atoi text with
          | none => some (.ret false (some .atoi))
          | some maxAge =>
            if unixSeconds env.now < addInt64 date maxAge then some (.ret true none)
            else some (.ret false none)
    else maxAgeLoop env header rest

/-- The part of `ItemIsFresh` after the comment "Checking with the server to
see if stale packets are still ok". -/
def revalidate (env : Env) (item : CacheItem) : Outcome :=
  let header := item.Packet.Header
  if Header.Get header "ETag" ≠ "" then
    let etag := Header.Get header "Etag"
    if env.NewRequestOk "HEAD" item.Key then
      match env.Do { Method := "HEAD", URL := item.Key,
                     Header := Header.Set [] "If-None-Match" etag } with
      | none => .panic
      | some status => if status = 304 then .ret true none else .ret false none
    else .ret false (some .newRequest)
  else if Header.Get header "Last-Modified" ≠ "" then
    let lastModified := Header.Get header "Last-Modified"
    if env.NewRequestOk "HEAD" item.Key then
      match env.Do { Method := "HEAD", URL := item.Key,
                     Header := Header.Set [] "If-Modified-Since" lastModified } with
      | none => .panic
      | some status => if status = 304 then .ret true none else .ret false none
    else .ret false (some .newRequest)
  else .ret false none

/-- Go `Cache.ItemIsFresh` (the receiver is not used). -/
def ItemIsFresh (env : Env) (item : CacheItem) : Outcome :=
  let header := item.Packet.Header
  if Header.Get header "Cache-Control" ≠ "" ∧ Header.Get header "Date" ≠ "" then
    let cacheControl := stringsTrimSpace (Header.Get header "Cache-Control")
    let controlElements := stringsSplit cacheControl ','
    match maxAgeLoop env header controlElements with
    | some out => out
    | none => revalidate env item
  else if Header.Get header "Expires" ≠ "" then
    match env.ParseTime (Header.Get header "Expires") with
    | none => .ret false (some .parseTime)
    | some date =>
      if env.now < date * 1000000000 then .ret true none
      else revalidate env item
  else revalidate env item

/-- The Unix seconds of `Wed, 21 Oct 2015 07:28:00 GMT`. -/
def T0 : Int := 1445412480

/-- An `http.ParseTime` that knows two dates, an hour apart. -/
def sampleParseTime (s : String) : Option Int :=
  if s = "Wed, 21 Oct 2015 07:28:00 GMT" then some T0
  else if s = "Wed, 21 Oct 2015 08:28:00 GMT" then some (T0 + 3600)
  else none

/-- An environment at `now` nanoseconds whose origin answers every request
with `status`. -/
def sampleEnv (now : Int) (status : Int) : Env :=
  { now := now, ParseTime := sampleParseTime, NewRequestOk := fun _ _ => true,
    Do := fun _ => some status }

/-- A cached item for `http://example.com/` with the given headers. -/
def itemWith (header : Header) : CacheItem :=
  { Key := "http://example.com/", Packet := responseWith header, BodyBytes := [] }

/-- The date `T0` as an HTTP date. -/
def dateT0 : String := "Wed, 21 Oct 2015 07:28:00 GMT"

/-- The date an hour after `T0` as an HTTP date. -/
def dateT0plus1h : String := "Wed, 21 Oct 2015 08:28:00 GMT"

/-- `secs` seconds after `T0`, in nanoseconds since the epoch. -/
def afterT0 (secs : Int) : Int := (T0 + secs) * 1000000000

/-- A cached item dated `T0` with the given Cache-Control value. -/
def maxAgeItem (cacheControl : String) : CacheItem :=
  itemWith [("Cache-Control", [cacheControl]), ("Date", [dateT0])]

/-! ## Lemmas on association lists and on the recency list -/

theorem lookup_some_iff_mem {l : List (String × CacheItem)}
    (nd : (l.map Prod.fst).Nodup) (k : String) (v : CacheItem) :
    l.lookup k = some v ↔ (k, v) ∈ l := by
  induction l with
  | nil => simp
  | cons p l ih =>
    obtain ⟨a, b⟩ := p
    simp only [List.map_cons, List.nodup_cons] at nd
    rw [List.lookup_cons]
    by_cases hk : k = a
    · subst hk
      simp only [beq_self_eq_true, Option.some.injEq, List.mem_cons, Prod.mk.injEq, true_and]
      constructor
      · intro h; exact Or.inl h.symm
      · rintro (h | h)
        · exact h.symm
        · exact absurd (List.mem_map_of_mem Prod.fst h) nd.1
    · have hb : (k == a) = false := by simpa using hk
      simp only [hb, List.mem_cons, Prod.mk.injEq, hk, false_and, false_or]
      exact ih nd.2

theorem map_fst_entryOf (l : List CacheItem) :
    (l.map entryOf).map Prod.fst = l.map CacheItem.Key := by
  simp [List.map_map, Function.comp_def, entryOf]

theorem Inv.items_keys_perm {C : Int} {c : Cache} (h : Inv C c) :
    (c.items.map Prod.fst).Perm c.keys := by
  have := h.perm.map Prod.fst
  rwa [map_fst_entryOf] at this

theorem Inv.items_nodup {C : Int} {c : Cache} (h : Inv C c) :
    (c.items.map Prod.fst).Nodup :=
  h.items_keys_perm.nodup_iff.mpr h.nodup

theorem Inv.lookup_iff {C : Int} {c : Cache} (h : Inv C c) (k : String) (v : CacheItem) :
    c.items.lookup k = some v ↔ v ∈ c.list ∧ v.Key = k := by
  rw [lookup_some_iff_mem h.items_nodup, h.perm.mem_iff]
  simp only [List.mem_map, entryOf, Prod.mk.injEq]
  constructor
  · rintro ⟨it, hit, hk, rfl⟩; exact ⟨hit, hk⟩
  · rintro ⟨hv, hk⟩; exact ⟨v, hv, hk, rfl⟩

theorem Inv.lookup_none_iff {C : Int} {c : Cache} (h : Inv C c) (k : String) :
    c.items.lookup k = none ↔ k ∉ c.keys := by
  rw [← h.items_keys_perm.mem_iff]
  simp only [List.lookup_eq_none_iff, List.mem_map, not_exists, not_and, bne_iff_ne, ne_eq]
  constructor
  · intro hh p hp hk; exact hh p hp hk.symm
  · intro hh p hp hk; exact hh p hp hk.symm

theorem Inv.length_eq {C : Int} {c : Cache} (h : Inv C c) :
    c.items.length = c.list.length := by
  simpa using h.perm.length_eq

theorem mapDelete_of_lookup_none {m : List (String × CacheItem)} {k : String}
    (h : m.lookup k = none) : mapDelete m k = m := by
  rw [List.lookup_eq_none_iff] at h
  unfold mapDelete
  rw [List.filter_eq_self]
  intro p hp
  have := h p hp
  simp only [bne_iff_ne, ne_eq] at this ⊢
  exact fun e => this e.symm

theorem inv_New (C : Int) (hC : 0 ≤ C) : Inv C (New C) :=
  ⟨rfl, by simp [New, Cache.keys], by simp [New], by simpa [New] using hC⟩

theorem inv_moveToFront {C : Int} {c : Cache} (h : Inv C c) {item : CacheItem}
    (hm : item ∈ c.list) : Inv C { c with list := moveToFront c.list item } := by
  have hp : (item :: c.list.erase item).Perm c.list := (List.perm_cons_erase hm).symm
  refine ⟨h.size_eq, ?_, ?_, ?_⟩
  · simp only [Cache.keys, moveToFront, hm, if_true]
    exact ((hp.map CacheItem.Key).nodup_iff).mpr h.nodup
  · simp only [moveToFront, hm, if_true]
    exact h.perm.trans (hp.map entryOf).symm
  · simp only [moveToFront, hm, if_true]
    rw [hp.length_eq]; exact h.bound

theorem inv_Get {C : Int} {c : Cache} (h : Inv C c) (key : String) :
    Inv C (Get c key).1 := by
  unfold Get
  cases hl : c.items.lookup key with
  | none => exact h
  | some item => exact inv_moveToFront h ((h.lookup_iff key item).mp hl).1

theorem prune_nil {c : Cache} (h : c.list = []) : prune c = c := by
  simp [prune, h]

theorem prune_snoc {c : Cache} {l : List CacheItem} {tail : CacheItem}
    (h : c.list = l ++ [tail]) :
    prune c = { c with list := l, items := mapDelete c.items tail.Key } := by
  simp [prune, h]

theorem inv_prune_snoc {C : Int} {c : Cache} (h : Inv C c) {l : List CacheItem}
    {tail : CacheItem} (hl : c.list = l ++ [tail]) :
    Inv C { c with list := l, items := mapDelete c.items tail.Key } := by
  have hnd : (l.map CacheItem.Key ++ [tail.Key]).Nodup := by
    have := h.nodup
    simpa [Cache.keys, hl] using this
  have hnot : tail.Key ∉ l.map CacheItem.Key := by
    intro hin
    exact (List.nodup_append.mp hnd).2.2 hin (by simp) 
  refine ⟨h.size_eq, (List.nodup_append.mp hnd).1, ?_, ?_⟩
  · have h1 : (mapDelete c.items tail.Key).Perm
        ((c.list.map entryOf).filter (fun p => p.1 != tail.Key)) := h.perm.filter _
    refine h1.trans (List.Perm.of_eq ?_)
    rw [hl, List.map_append, List.filter_append]
    have e1 : (l.map entryOf).filter (fun p => p.1 != tail.Key) = l.map entryOf := by
      rw [List.filter_eq_self]
      intro p hp
      obtain ⟨it, hit, rfl⟩ := List.mem_map.mp hp
      simp only [entryOf, bne_iff_ne, ne_eq]
      intro e
      exact hnot (e ▸ List.mem_map_of_mem CacheItem.Key hit)
    rw [e1]
    simp [entryOf]
  · have := h.bound
    rw [hl] at this
    simp only [List.length_append, List.length_singleton, Nat.cast_add, Nat.cast_one] at this
    show (l.length : Int) ≤ C
    omega

theorem inv_prune {C : Int} {c : Cache} (h : Inv C c) : Inv C (prune c) := by
  cases hl : c.list.getLast? with
  | none =>
    have : c.list = [] := by simpa using hl
    rw [prune_nil this]; exact h
  | some tail =>
    obtain ⟨l, hl2⟩ := List.getLast?_eq_some_iff.mp hl
    rw [prune_snoc hl2]; exact inv_prune_snoc h hl2

theorem prune_length_lt {c : Cache} (h : c.list ≠ []) :
    (prune c).list.length + 1 = c.list.length := by
  cases hl : c.list.getLast? with
  | none => exact absurd (by simpa using hl) h
  | some tail =>
    obtain ⟨l, hl2⟩ := List.getLast?_eq_some_iff.mp hl
    rw [prune_snoc hl2, hl2]; simp

theorem Set_eq_of_lt {c : Cache} (item : CacheItem) (h : (c.list.length : Int) < c.size) :
    Set c item =
      match c.items.lookup item.Key with
      | some cacheItem => { c with list := moveToFront c.list cacheItem }
      | none => { c with list := item :: c.list, items := mapSet c.items item.Key item } := by
  have h2 : ¬ ((c.list.length : Int) ≥ c.size) := by omega
  simp only [Set, h2, if_false]

theorem Set_eq_of_ge {c : Cache} (item : CacheItem) (h : c.size ≤ (c.list.length : Int)) :
    Set c item =
      match (prune c).items.lookup item.Key with
      | some cacheItem => { prune c with list := moveToFront (prune c).list cacheItem }
      | none =>
        { prune c with list := item :: (prune c).list,
                       items := mapSet (prune c).items item.Key item } := by
  have h2 : (c.list.length : Int) ≥ c.size := h
  simp only [Set, h2, if_true]

/-- Touching or inserting on a cache that has room keeps the invariant. -/
theorem inv_touch_or_insert {C : Int} {c : Cache} (h : Inv C c)
    (hroom : (c.list.length : Int) < C) (item : CacheItem) :
    Inv C (match c.items.lookup item.Key with
      | some cacheItem => { c with list := moveToFront c.list cacheItem }
      | none => { c with list := item :: c.list, items := mapSet c.items item.Key item }) := by
  cases hl : c.items.lookup item.Key with
  | some cacheItem => exact inv_moveToFront h ((h.lookup_iff _ _).mp hl).1
  | none =>
    have hk : item.Key ∉ c.keys := (h.lookup_none_iff _).mp hl
    refine ⟨h.size_eq, ?_, ?_, ?_⟩
    · show (item.Key :: c.keys).Nodup
      exact List.nodup_cons.mpr ⟨hk, h.nodup⟩
    · show (mapSet c.items item.Key item).Perm (entryOf item :: c.list.map entryOf)
      unfold mapSet
      rw [mapDelete_of_lookup_none hl]
      exact List.Perm.cons _ h.perm
    · show ((c.list.length + 1 : Nat) : Int) ≤ C
      push_cast; omega

theorem inv_Set {C : Int} (hC : 1 ≤ C) {c : Cache} (h : Inv C c) (item : CacheItem) :
    Inv C (Set c item) := by
  by_cases hfull : c.size ≤ (c.list.length : Int)
  · rw [Set_eq_of_ge item hfull]
    have hne : c.list ≠ [] := by
      intro e
      rw [e, h.size_eq] at hfull
      simp at hfull; omega
    have hlen := prune_length_lt hne
    have hb := h.bound
    exact inv_touch_or_insert (inv_prune h) (by omega) item
  · rw [Set_eq_of_lt item (by omega)]
    exact inv_touch_or_insert h (by rw [← h.size_eq]; omega) item

theorem inv_step {C : Int} (hC : 1 ≤ C) {c : Cache} (h : Inv C c) (op : Op) :
    Inv C (step c op) := by
  cases op with
  | get key => exact inv_Get h key
  | set item => exact inv_Set hC h item

theorem inv_run {C : Int} (hC : 1 ≤ C) (ops : List Op) {c : Cache} (h : Inv C c) :
    Inv C (run c ops) := by
  induction ops generalizing c with
  | nil => exact h
  | cons op ops ih => exact ih (inv_step hC h op)

theorem Get_snd (c : Cache) (key : String) : (Get c key).2 = c.items.lookup key := by
  unfold Get; split <;> simp [*]

theorem prune_list (c : Cache) : (prune c).list = c.list.dropLast := by
  cases hl : c.list.getLast? with
  | none =>
    have : c.list = [] := by simpa using hl
    rw [prune_nil this, this]; rfl
  | some tail =>
    obtain ⟨l, hl2⟩ := List.getLast?_eq_some_iff.mp hl
    rw [prune_snoc hl2, hl2]; simp

theorem lookup_mapDelete_none {m : List (String × CacheItem)} {k : String} (k2 : String)
    (h : m.lookup k = none) : (mapDelete m k2).lookup k = none := by
  rw [List.lookup_eq_none_iff] at h ⊢
  intro p hp
  exact h p (List.mem_of_mem_filter hp)

theorem prune_lookup_none {c : Cache} {k : String} (h : c.items.lookup k = none) :
    (prune c).items.lookup k = none := by
  unfold prune
  split
  · exact h
  · exact lookup_mapDelete_none _ h

/-! ## Lemmas on the recency order -/

theorem distinctFirst_mem (l : List String) (k : String) :
    k ∈ distinctFirst l ↔ k ∈ l := by
  induction l with
  | nil => simp [distinctFirst]
  | cons a l ih =>
    simp only [distinctFirst, List.mem_cons, List.mem_filter, ih, bne_iff_ne, ne_eq]
    by_cases h : k = a <;> simp [h]

theorem distinctFirst_nodup (l : List String) : (distinctFirst l).Nodup := by
  induction l with
  | nil => simp [distinctFirst]
  | cons a l ih =>
    simp only [distinctFirst, List.nodup_cons, List.mem_filter, bne_self_eq_false,
      Bool.false_eq_true, and_false, not_false_eq_true, true_and]
    exact ih.filter _

theorem distinctFirst_length_congr {l₁ l₂ : List String} (h : ∀ k, k ∈ l₁ ↔ k ∈ l₂) :
    (distinctFirst l₁).length = (distinctFirst l₂).length := by
  apply List.Perm.length_eq
  rw [List.perm_ext_iff_of_nodup (distinctFirst_nodup _) (distinctFirst_nodup _)]
  intro k
  rw [distinctFirst_mem, distinctFirst_mem, h]

theorem take_filter_of_not_mem (k : String) (D : List String) (m : Nat)
    (h : k ∉ D.take m) : (D.filter (fun x => x != k)).take m = D.take m := by
  induction D generalizing m with
  | nil => simp
  | cons d D ih =>
    cases m with
    | zero => simp
    | succ m =>
      simp only [List.take_succ_cons, List.mem_cons, not_or] at h
      have hd : (d != k) = true := by simpa using fun e => h.1 e.symm
      simp only [List.filter_cons, hd, if_true, List.take_succ_cons, ih m h.2]

theorem filter_ne_of_not_mem (k : String) (D : List String) (h : k ∉ D) :
    D.filter (fun x => x != k) = D := by
  rw [List.filter_eq_self]
  intro a ha
  have : a ≠ k := fun e => h (e ▸ ha)
  simpa using this

theorem take_filter_of_mem (k : String) (D : List String) (m : Nat) (nd : D.Nodup)
    (h : k ∈ D.take (m + 1)) :
    (D.filter (fun x => x != k)).take m = (D.take (m + 1)).filter (fun x => x != k) := by
  induction D generalizing m with
  | nil => simp at h
  | cons d D ih =>
    rw [List.nodup_cons] at nd
    by_cases hd : d = k
    · subst hd
      have hk : (d != d) = false := by simp
      simp only [List.filter_cons, hk, List.take_succ_cons]
      rw [filter_ne_of_not_mem d D nd.1]
      simp only [Bool.false_eq_true, if_false]
      rw [filter_ne_of_not_mem d _ (fun hin => nd.1 (List.mem_of_mem_take hin))]
    · have hk : (d != k) = true := by simpa using hd
      simp only [List.take_succ_cons, List.mem_cons] at h
      have hin : k ∈ D.take m := by
        rcases h with h | h
        · exact absurd h.symm hd
        · exact h
      cases m with
      | zero => simp at hin
      | succ m =>
        simp only [List.filter_cons, hk, if_true, List.take_succ_cons]
        rw [ih m nd.2 hin]

theorem map_key_erase {l : List CacheItem} {item : CacheItem} (hm : item ∈ l)
    (nd : (l.map CacheItem.Key).Nodup) :
    (l.erase item).map CacheItem.Key = (l.map CacheItem.Key).erase item.Key := by
  induction l with
  | nil => simp at hm
  | cons a l ih =>
    rw [List.map_cons, List.nodup_cons] at nd
    by_cases ha : a = item
    · subst ha; simp
    · have hin : item ∈ l := by
        rcases List.mem_cons.mp hm with h | h
        · exact absurd h.symm ha
        · exact h
      have hk : a.Key ≠ item.Key := by
        intro e
        exact nd.1 (e ▸ List.mem_map_of_mem CacheItem.Key hin)
      rw [List.erase_cons_tail (by simpa using ha), List.map_cons, List.map_cons,
        List.erase_cons_tail (by simpa using hk), ih hin nd.2]

theorem keys_moveToFront {C : Int} {c : Cache} (h : Inv C c) {item : CacheItem}
    (hm : item ∈ c.list) :
    (moveToFront c.list item).map CacheItem.Key =
      item.Key :: c.keys.filter (fun x => x != item.Key) := by
  simp only [moveToFront, hm, if_true, List.map_cons]
  rw [map_key_erase hm h.nodup]
  have := List.Nodup.erase_eq_filter h.nodup item.Key
  unfold Cache.keys at this ⊢
  rw [this]

theorem keys_touch_present {C : Int} {c : Cache} (h : Inv C c) {log : List String} {n : Nat}
    (hn : 1 ≤ n) (hk : c.keys = (distinctFirst log).take n) {item : CacheItem}
    (hm : item ∈ c.list) :
    (moveToFront c.list item).map CacheItem.Key =
      (distinctFirst (item.Key :: log)).take n := by
  obtain ⟨m, rfl⟩ : ∃ m, n = m + 1 := ⟨n - 1, by omega⟩
  have hin : item.Key ∈ (distinctFirst log).take (m + 1) := by
    rw [← hk]; exact List.mem_map_of_mem CacheItem.Key hm
  rw [keys_moveToFront h hm, hk]
  simp only [distinctFirst, List.take_succ_cons]
  rw [take_filter_of_mem _ _ _ (distinctFirst_nodup log) hin]

theorem keys_insert_room {keys : List String} {log : List String} {n : Nat}
    (hk : keys = (distinctFirst log).take n) (hlen : keys.length < n) {k : String}
    (hnot : k ∉ keys) :
    k :: keys = (distinctFirst (k :: log)).take n := by
  obtain ⟨m, rfl⟩ : ∃ m, n = m + 1 := ⟨n - 1, by omega⟩
  have hD : (distinctFirst log).length < m + 1 := by
    rw [hk, List.length_take] at hlen
    omega
  have hkeys : keys = distinctFirst log := by
    rw [hk, List.take_of_length_le (by omega)]
  simp only [distinctFirst, List.take_succ_cons]
  rw [filter_ne_of_not_mem k _ (hkeys ▸ hnot), List.take_of_length_le (by omega), hkeys]

theorem keys_insert_full {keys : List String} {log : List String} {n : Nat}
    (hn : 1 ≤ n) (hk : keys = (distinctFirst log).take n) (hlen : keys.length = n)
    {k : String} (hnot : k ∉ keys) :
    k :: keys.dropLast = (distinctFirst (k :: log)).take n := by
  obtain ⟨m, rfl⟩ : ∃ m, n = m + 1 := ⟨n - 1, by omega⟩
  have hsub : k ∉ (distinctFirst log).take m := by
    intro hin
    apply hnot
    rw [hk]
    have : (distinctFirst log).take m = ((distinctFirst log).take (m + 1)).take m := by
      rw [List.take_take]; simp
    rw [this] at hin
    exact List.mem_of_mem_take hin
  simp only [distinctFirst, List.take_succ_cons]
  rw [take_filter_of_not_mem k _ m hsub, List.dropLast_eq_take, hlen, hk, List.take_take]
  simp

theorem mem_keys_mem_log {c : Cache} {log : List String} {n : Nat}
    (hk : c.keys = (distinctFirst log).take n) {k : String} (h : k ∈ c.keys) : k ∈ log := by
  rw [hk] at h
  exact (distinctFirst_mem log k).mp (List.mem_of_mem_take h)

/-- The recency list follows the touches of the run, as long as no `Set` meets
a present key in a full cache. -/
theorem lru_run {C : Int} (hC : 1 ≤ C) (ops : List Op) :
    ∀ (c : Cache) (log S : List String), Inv C c →
      c.keys = (distinctFirst log).take C.toNat → (∀ k, k ∈ log ↔ k ∈ S) →
      noSetOnPresentWhenFull c ops = true →
      (run c ops).keys = (distinctFirst (touchLog c log ops)).take C.toNat ∧
      (∀ k, k ∈ touchLog c log ops ↔ k ∈ setKeys ops ∨ k ∈ S) := by
  have hn : 1 ≤ C.toNat := by omega
  induction ops with
  | nil =>
    intro c log S _ hk hS _
    exact ⟨hk, fun k => by simpa [touchLog, setKeys] using hS k⟩
  | cons op ops ih =>
    intro c log S h hk hS hg
    cases op with
    | get key =>
      simp only [noSetOnPresentWhenFull] at hg
      simp only [run, List.foldl_cons, touchLog, setKeys]
      cases hl : c.items.lookup key with
      | none =>
        have e : step c (.get key) = c := by simp [step, Get, hl]
        rw [e] at hg ⊢
        simpa using ih c log S h hk hS hg
      | some item =>
        have hit := (h.lookup_iff _ _).mp hl
        have e : step c (.get key) = { c with list := moveToFront c.list item } := by
          simp [step, Get, hl]
        have hinv : Inv C (step c (.get key)) := inv_step hC h _
        rw [e] at hg hinv ⊢
        have hk2 := keys_touch_present h hn hk hit.1
        rw [hit.2] at hk2
        have hS2 : ∀ k, k ∈ key :: log ↔ k ∈ S := by
          intro k
          rw [← hS k, List.mem_cons]
          constructor
          · rintro (rfl | hh)
            · apply mem_keys_mem_log hk
              rw [← hit.2]; exact List.mem_map_of_mem CacheItem.Key hit.1
            · exact hh
          · exact Or.inr
        simpa using ih _ (key :: log) S hinv hk2 hS2 hg
    | set item =>
      simp only [noSetOnPresentWhenFull, Bool.and_eq_true, Bool.not_eq_true',
        Bool.and_eq_false_iff, decide_eq_false_iff_not] at hg
      simp only [run, List.foldl_cons, touchLog, setKeys]
      have hinv : Inv C (step c (.set item)) := inv_step hC h _
      have hS2 : ∀ k, k ∈ item.Key :: log ↔ k ∈ item.Key :: S := by
        intro k; simp only [List.mem_cons, hS k]
      have hk2 : (step c (.set item)).keys = (distinctFirst (item.Key :: log)).take C.toNat := by
        have hb := h.bound
        have hs := h.size_eq
        have hlen := h.length_eq
        show (Set c item).keys = _
        by_cases hfull : c.size ≤ (c.list.length : Int)
        · have habs : c.items.lookup item.Key = none := by
            rcases hg.1 with h1 | h1
            · exact absurd (by rw [hlen]; omega) h1
            · simpa using h1
          rw [Set_eq_of_ge item hfull]
          simp only [prune_lookup_none habs]
          show item.Key :: (prune c).list.map CacheItem.Key = _
          rw [prune_list, List.map_dropLast]
          exact keys_insert_full hn hk (by simp [Cache.keys]; omega)
            ((h.lookup_none_iff _).mp habs)
        · rw [Set_eq_of_lt item (by omega)]
          cases hl : c.items.lookup item.Key with
          | some ci =>
            have hci := (h.lookup_iff _ _).mp hl
            have := keys_touch_present h hn hk hci.1
            rw [hci.2] at this
            exact this
          | none =>
            exact keys_insert_room hk (by simp [Cache.keys]; omega)
              ((h.lookup_none_iff _).mp hl)
      obtain ⟨r1, r2⟩ := ih _ (item.Key :: log) (item.Key :: S) hinv hk2 hS2 hg.2
      refine ⟨by simpa [run] using r1, fun k => ?_⟩
      rw [r2 k]
      simp only [List.mem_cons]
      tauto

/-! ## Lemmas on `strings.Split`, `strings.Contains`, `strconv.Atoi` and the clock -/

theorem splitChars_ne_nil (sep : Char) (l : List Char) : splitChars sep l ≠ [] := by
  cases l with
  | nil => simp [splitChars]
  | cons c cs =>
    simp only [splitChars]
    split
    · simp
    · split <;> simp

theorem splitChars_of_not_mem (sep : Char) (l : List Char) (h : sep ∉ l) :
    splitChars sep l = [l] := by
  induction l with
  | nil => rfl
  | cons c cs ih =>
    simp only [List.mem_cons, not_or] at h
    have hc : ¬ c = sep := fun e => h.1 e.symm
    simp only [splitChars, ih h.2, hc, if_false]

theorem splitChars_append_sep (sep : Char) (a b : List Char) (h : sep ∉ a) :
    splitChars sep (a ++ sep :: b) = a :: splitChars sep b := by
  induction a with
  | nil =>
    simp only [List.nil_append, splitChars]
    cases hb : splitChars sep b with
    | nil => exact absurd hb (splitChars_ne_nil sep b)
    | cons hd tl => simp
  | cons c cs ih =>
    simp only [List.mem_cons, not_or] at h
    have hc : ¬ c = sep := fun e => h.1 e.symm
    have e : splitChars sep (c :: (cs ++ sep :: b)) = (c :: cs) :: splitChars sep b := by
      simp only [splitChars, ih h.2, hc, if_false]
    exact e

theorem hasPrefixChars_append (p rest : List Char) : hasPrefixChars p (p ++ rest) = true := by
  induction p with
  | nil => cases rest <;> rfl
  | cons c cs ih => simp [hasPrefixChars, ih]

theorem containsChars_append (sub pre rest : List Char) :
    containsChars sub (pre ++ (sub ++ rest)) = true := by
  induction pre with
  | nil =>
    cases h : sub ++ rest with
    | nil =>
      have h1 : sub = [] := (List.append_eq_nil.mp h).1
      subst h1
      simp [containsChars, hasPrefixChars]
    | cons c cs =>
      simp only [List.nil_append, containsChars]
      rw [← h, hasPrefixChars_append]; rfl
  | cons c cs ih =>
    have e : containsChars sub (c :: (cs ++ (sub ++ rest))) = true := by
      simp only [containsChars, ih, Bool.or_true]
    exact e

theorem addInt64_of_fits (a b : Int) (h1 : -(2 : Int) ^ 63 ≤ a + b) (h2 : a + b < (2 : Int) ^ 63) :
    addInt64 a b = a + b := by
  unfold addInt64
  norm_num at h1 h2 ⊢
  omega

theorem unixSeconds_lt_iff (t s : Int) : unixSeconds t < s ↔ t < s * 1000000000 := by
  unfold unixSeconds
  exact Int.ediv_lt_iff_lt_mul (by norm_num)

theorem not_mem_of_all_isDigit (l : List Char) (h : l.all isDigit = true) : '=' ∉ l := by
  intro hin
  have := List.all_eq_true.mp h _ hin
  revert this
  decide

theorem Atoi_no_equals {s : String} {N : Int} (h : Atoi s = some N) : '=' ∉ s.data := by
  unfold Atoi at h
  simp only [] at h
  split at h
  · simp at h
  · rename_i hcond
    simp only [Bool.or_eq_true, Bool.not_eq_true', not_or, Bool.not_eq_false] at hcond
    have hall := hcond.2
    split at hall
    · rename_i r heq
      rw [heq]
      simp only [List.mem_cons, not_or]
      exact ⟨by decide, not_mem_of_all_isDigit _ hall⟩
    · rename_i r heq
      rw [heq]
      simp only [List.mem_cons, not_or]
      exact ⟨by decide, not_mem_of_all_isDigit _ hall⟩
    · exact not_mem_of_all_isDigit _ hall

/-- A token `<pre>max-age=<text>` contains `max-age`, and the text after its
first `=` is `text` when `text` reads as an integer. -/
theorem max_age_token {pre text : String} {N : Int} (hpre : '=' ∉ pre.data)
    (hN : Atoi text = some N) :
    stringsContains (pre ++ "max-age=" ++ text) "max-age" = true ∧
    (stringsSplit (pre ++ "max-age=" ++ text) '=').get? 1 = some text := by
  have hd : (pre ++ "max-age=" ++ text).data
      = pre.data ++ (['m', 'a', 'x', '-', 'a', 'g', 'e'] ++ '=' :: text.data) := by
    simp [String.data_append]
  constructor
  · unfold stringsContains
    rw [hd]
    exact containsChars_append _ _ _
  · unfold stringsSplit
    have hd2 : (pre ++ "max-age=" ++ text).data
        = (pre.data ++ ['m', 'a', 'x', '-', 'a', 'g', 'e']) ++ '=' :: text.data := by
      rw [hd]; simp
    have hnot : '=' ∉ pre.data ++ ['m', 'a', 'x', '-', 'a', 'g', 'e'] := by
      simp only [List.mem_append, not_or]
      exact ⟨hpre, by decide⟩
    rw [hd2, splitChars_append_sep _ _ _ hnot,
      splitChars_of_not_mem _ _ (Atoi_no_equals hN)]
    rfl

/-- The loop returns at the first element that contains `max-age`. -/
theorem maxAgeLoop_of_find (env : Env) (header : Header) (els : List String) (val : String)
    (h : els.find? (fun v => stringsContains v "max-age") = some val) :
    maxAgeLoop env header els = maxAgeLoop env header [val] := by
  induction els with
  | nil => simp at h
  | cons e els ih =>
    by_cases he : stringsContains e "max-age" = true
    · simp only [List.find?_cons, he, Option.some.injEq] at h
      subst h
      simp only [maxAgeLoop, he, if_true]
    · simp only [List.find?_cons, he] at h
      have hv := ih h
      have hval : stringsContains val "max-age" = true := by
        have := List.find?_some h
        simpa using this
      simp only [maxAgeLoop, he, hval, if_true] at hv ⊢
      exact hv

/-! ## The claims of the specification -/

/-- C1: for every cache created by `New C` with `C ≥ 1` and every sequence of
`Get` and `Set` calls, the state reached has at most `C` entries in the key
map, as many entries in the key map as in the recency list, the same keys in
both, and every key of the map exactly once in the list (so at most one entry
per key). -/
theorem C1_reachable_invariant (C : Int) (hC : 1 ≤ C) (ops : List Op) :
    ((run (New C) ops).items.length : Int) ≤ C ∧
    (run (New C) ops).items.length = (run (New C) ops).list.length ∧
    (∀ k : String, k ∈ (run (New C) ops).items.map Prod.fst ↔ k ∈ (run (New C) ops).keys) ∧
    (∀ k : String, k ∈ (run (New C) ops).items.map Prod.fst →
      (run (New C) ops).keys.count k = 1) ∧
    ((run (New C) ops).items.map Prod.fst).Nodup := by
  have h : Inv C (run (New C) ops) := inv_run hC ops (inv_New C (by omega))
  refine ⟨?_, h.length_eq, fun k => h.items_keys_perm.mem_iff, ?_, h.items_nodup⟩
  · rw [h.length_eq]; exact h.bound
  · intro k hk
    exact List.count_eq_one_of_mem h.nodup (h.items_keys_perm.mem_iff.mp hk)

/-- C1 at capacity 2 on a run that sets a key twice, reads and evicts. -/
theorem C1_reachable_invariant_witness :
    (1 : Int) ≤ 2 ∧
    (((run (New 2) [.set (mkItem "a" []), .set (mkItem "b" []), .set (mkItem "b" [1]),
        .get "a", .set (mkItem "c" [])]).items.length : Int) ≤ 2) :=
  ⟨by decide,
   (C1_reachable_invariant 2 (by decide) [.set (mkItem "a" []), .set (mkItem "b" []),
      .set (mkItem "b" [1]), .get "a", .set (mkItem "c" [])]).1⟩

/-- C2 fails on the code: with capacity 2, after `Set a`, `Set b`, `Set b` two
distinct keys have been set and the two most recently touched distinct keys are
`b`, `a`, but the cache holds `b` alone: the second `Set b` met a full cache and
pruned `a` before it looked `b` up. -/
theorem C2_set_present_on_full_evicts :
    (distinctFirst (setKeys [.set (mkItem "a" []), .set (mkItem "b" []),
        .set (mkItem "b" [])])).length = 2 ∧
    (distinctFirst (touched (New 2) [.set (mkItem "a" []), .set (mkItem "b" []),
        .set (mkItem "b" [])])).take 2 = ["b", "a"] ∧
    (run (New 2) [.set (mkItem "a" []), .set (mkItem "b" []),
        .set (mkItem "b" [])]).keys = ["b"] ∧
    (Get (run (New 2) [.set (mkItem "a" []), .set (mkItem "b" []),
        .set (mkItem "b" [])]) "a").2 = none := by
  decide

/-- C3: for every capacity `C ≥ 1` and every run from `New C` in which no `Set`
meets a present key while the cache holds `C` entries, the recency list is the
first `min C n` of the distinct touched keys, most recent first, where `n` is
the number of distinct keys set (which is also the number of distinct touched
keys), and every key outside the list `Get`s as absent. With `C = 3`:
`Set A, B, C, D` leaves `[D, C, B]` without `A`, and `Set A, B, C; Get A; Set D`
leaves `[D, A, C]` without `B`. -/
theorem C3_recency_order (C : Int) (hC : 1 ≤ C) (ops : List Op)
    (hg : noSetOnPresentWhenFull (New C) ops = true) :
    (run (New C) ops).keys =
      (distinctFirst (touched (New C) ops)).take
        (min C.toNat (distinctFirst (setKeys ops)).length) ∧
    (distinctFirst (touched (New C) ops)).length = (distinctFirst (setKeys ops)).length ∧
    (∀ k : String, k ∉ (run (New C) ops).keys → (Get (run (New C) ops) k).2 = none) ∧
    (run (New 3) [.set (mkItem "A" []), .set (mkItem "B" []), .set (mkItem "C" []),
        .set (mkItem "D" [])]).keys = ["D", "C", "B"] ∧
    (Get (run (New 3) [.set (mkItem "A" []), .set (mkItem "B" []), .set (mkItem "C" []),
        .set (mkItem "D" [])]) "A").2 = none ∧
    (run (New 3) [.set (mkItem "A" []), .set (mkItem "B" []), .set (mkItem "C" []),
        .get "A", .set (mkItem "D" [])]).keys = ["D", "A", "C"] ∧
    (Get (run (New 3) [.set (mkItem "A" []), .set (mkItem "B" []), .set (mkItem "C" []),
        .get "A", .set (mkItem "D" [])]) "B").2 = none := by
  have h0 : Inv C (New C) := inv_New C (by omega)
  have h : Inv C (run (New C) ops) := inv_run hC ops h0
  obtain ⟨r1, r2⟩ := lru_run hC ops (New C) [] [] h0 (by simp [New, Cache.keys, distinctFirst])
    (fun k => Iff.rfl) hg
  have hlen : (distinctFirst (touched (New C) ops)).length
      = (distinctFirst (setKeys ops)).length :=
    distinctFirst_length_congr (fun k => by rw [touched, r2 k]; simp)
  refine ⟨?_, hlen, ?_, by decide, by decide, by decide, by decide⟩
  · rw [r1, ← hlen]
    show List.take C.toNat (distinctFirst (touched (New C) ops)) = _
    rw [List.take_eq_take]
    simp
  · intro k hk
    rw [Get_snd]
    exact (h.lookup_none_iff k).mpr hk

/-- C3 on the second scenario of the specification, capacity 3. -/
theorem C3_recency_order_witness :
    (run (New 3) [.set (mkItem "A" []), .set (mkItem "B" []), .set (mkItem "C" []),
        .get "A", .set (mkItem "D" [])]).keys =
      (distinctFirst (touched (New 3) [.set (mkItem "A" []), .set (mkItem "B" []),
        .set (mkItem "C" []), .get "A", .set (mkItem "D" [])])).take
        (min (3 : Int).toNat (distinctFirst (setKeys [.set (mkItem "A" []),
          .set (mkItem "B" []), .set (mkItem "C" []), .get "A",
          .set (mkItem "D" [])])).length) :=
  (C3_recency_order 3 (by decide) [.set (mkItem "A" []), .set (mkItem "B" []),
    .set (mkItem "C" []), .get "A", .set (mkItem "D" [])] (by decide)).1

/-- C4 as stated fails: in a cache of capacity 3 that holds `k` with the plain
response and body `[1]`, `Set` of an item for `k` with another response and
body `[2]` leaves the old item stored, and `Get` returns the old one. -/
theorem C4_counterexample :
    (Get (run (New 3) [.set (mkItem "k" [1])]) "k").2 = some (mkItem "k" [1]) ∧
    (Get (Set (run (New 3) [.set (mkItem "k" [1])])
        { Key := "k", Packet := notFoundResponse, BodyBytes := [2] }) "k").2
      = some (mkItem "k" [1]) ∧
    (mkItem "k" [1]).Packet ≠ notFoundResponse ∧ (mkItem "k" [1]).BodyBytes ≠ [2] := by
  decide

/-- C4 amended: for every reachable cache of capacity `C ≥ 1` and every item
whose key is already present, after `Set(item)` that key is at the front of the
recency list and the number of entries has not increased; when the cache held
fewer than `C` entries, the entry stored under the key is the previously stored
item, not the one supplied. -/
theorem C4_set_present_keeps_old (C : Int) (hC : 1 ≤ C) (ops : List Op)
    (item old : CacheItem) (hpres : (Get (run (New C) ops) item.Key).2 = some old) :
    (Set (run (New C) ops) item).keys.head? = some item.Key ∧
    (Set (run (New C) ops) item).items.length ≤ (run (New C) ops).items.length ∧
    (((run (New C) ops).items.length : Int) < C →
      (Get (Set (run (New C) ops) item) item.Key).2 = some old ∧
      (Set (run (New C) ops) item).items = (run (New C) ops).items) := by
  have h : Inv C (run (New C) ops) := inv_run hC ops (inv_New C (by omega))
  generalize run (New C) ops = c at h hpres ⊢
  rw [Get_snd] at hpres
  have hb := h.bound
  have hs := h.size_eq
  have hlen := h.length_eq
  have hold := (h.lookup_iff _ _).mp hpres
  by_cases hfull : c.size ≤ (c.list.length : Int)
  · have hne : c.list ≠ [] := by
      intro e
      rw [e, hs] at hfull
      simp at hfull; omega
    have hpl := prune_length_lt hne
    have hpi := inv_prune h
    have hplen := hpi.length_eq
    rw [Set_eq_of_ge item hfull]
    refine ⟨?_, ?_, fun hlt => absurd hlt (by omega)⟩
    · cases hl : (prune c).items.lookup item.Key with
      | some ci =>
        have hci := (hpi.lookup_iff _ _).mp hl
        simp [Cache.keys, moveToFront, hci.1, hci.2]
      | none => simp [Cache.keys]
    · cases hl : (prune c).items.lookup item.Key with
      | some ci => simp only; omega
      | none =>
        simp only [mapSet, mapDelete_of_lookup_none hl, List.length_cons]
        omega
  · rw [Set_eq_of_lt item (by omega)]
    simp only [hpres]
    refine ⟨?_, le_refl _, fun _ => ⟨?_, trivial⟩⟩
    · simp [Cache.keys, moveToFront, hold.1, hold.2]
    · rw [Get_snd]; exact hpres

/-- C4 amended, at the cache of capacity 3 holding `k`. -/
theorem C4_set_present_keeps_old_witness :
    (Set (run (New 3) [.set (mkItem "k" [1])])
        { Key := "k", Packet := notFoundResponse, BodyBytes := [2] }).keys.head? = some "k" :=
  (C4_set_present_keeps_old 3 (by decide) [.set (mkItem "k" [1])]
    { Key := "k", Packet := notFoundResponse, BodyBytes := [2] } (mkItem "k" [1])
    (by decide)).1

/-- C5: for every reachable cache of capacity `C ≥ 1`, full or not, and every
item whose key is absent from it, `Get(item.Key)` right after `Set(item)`
returns that item; the item is put at the front of the recency list, in place
of the least recently used entry when the cache was full. -/
theorem C5_get_after_set_absent (C : Int) (hC : 1 ≤ C) (ops : List Op) (item : CacheItem)
    (habs : (Get (run (New C) ops) item.Key).2 = none) :
    (Get (Set (run (New C) ops) item) item.Key).2 = some item ∧
    (Set (run (New C) ops) item).list =
      item :: (if ((run (New C) ops).items.length : Int) = C
               then (run (New C) ops).list.dropLast else (run (New C) ops).list) := by
  have h : Inv C (run (New C) ops) := inv_run hC ops (inv_New C (by omega))
  generalize run (New C) ops = c at h habs ⊢
  rw [Get_snd] at habs
  rw [Get_snd]
  have hb := h.bound
  have hs := h.size_eq
  by_cases hfull : c.size ≤ (c.list.length : Int)
  · have hp := prune_lookup_none habs
    rw [Set_eq_of_ge item hfull]
    simp only [hp]
    have hlen : (c.items.length : Int) = C := by rw [h.length_eq]; omega
    simp [mapSet, prune_list, hlen]
  · rw [Set_eq_of_lt item (by omega)]
    simp only [habs]
    have hlen : ¬ (c.items.length : Int) = C := by rw [h.length_eq]; omega
    simp [mapSet, hlen]

/-- C5 on the full cache of capacity 2 holding `b`, `a`: setting `c` evicts `a`. -/
theorem C5_get_after_set_absent_witness :
    (Get (Set (run (New 2) [.set (mkItem "a" []), .set (mkItem "b" [])]) (mkItem "c" [7]))
        "c").2 = some (mkItem "c" [7]) ∧
    (Set (run (New 2) [.set (mkItem "a" []), .set (mkItem "b" [])]) (mkItem "c" [7])).list =
      [mkItem "c" [7], mkItem "b" []] := by
  have h := C5_get_after_set_absent 2 (by decide)
    [.set (mkItem "a" []), .set (mkItem "b" [])] (mkItem "c" [7]) (by decide)
  exact ⟨h.1, by decide⟩

/-- C6 as stated fails: the Cache-Control value `max-age`, a directive without
any value, holds no max-age directive with a nonzero value and none of
`private`, `no-cache`, `no-store`, `max-age=0`, yet `isCacheable` returns
true. -/
theorem C6_counterexample :
    Header.Get (responseWith [("Cache-Control", ["max-age"])]).Header "Cache-Control" ≠ "" ∧
    hasNonzeroMaxAge "max-age" = false ∧
    stringsContains "max-age" "max-age=0" = false ∧
    isCacheable (responseWith [("Cache-Control", ["max-age"])]) = true := by
  decide

/-- C6 amended: for every response whose Cache-Control header is present,
whatever its other headers are, `isCacheable` returns true if and only if the
Cache-Control value contains the substring `max-age` (with or without a value)
and contains none of the substrings `private`, `no-cache`, `no-store`,
`max-age=0`. So `max-age=3600` is cacheable, `max-age=0` and
`private, max-age=60` are not, and a Cache-Control without `max-age` is not
cacheable even when Expires is present. -/
theorem C6_isCacheable_cache_control (r : Response)
    (hcc : Header.Get r.Header "Cache-Control" ≠ "") :
    (isCacheable r = true ↔
      (stringsContains (Header.Get r.Header "Cache-Control") "max-age" = true ∧
       stringsContains (Header.Get r.Header "Cache-Control") "private" = false ∧
       stringsContains (Header.Get r.Header "Cache-Control") "no-cache" = false ∧
       stringsContains (Header.Get r.Header "Cache-Control") "no-store" = false ∧
       stringsContains (Header.Get r.Header "Cache-Control") "max-age=0" = false)) ∧
    isCacheable (responseWith [("Cache-Control", ["max-age=3600"])]) = true ∧
    isCacheable (responseWith [("Cache-Control", ["max-age=0"])]) = false ∧
    isCacheable (responseWith [("Cache-Control", ["private, max-age=60"])]) = false ∧
    isCacheable (responseWith [("Cache-Control", ["public"]), ("Expires", [dateT0plus1h])])
      = false := by
  refine ⟨?_, by decide, by decide, by decide, by decide⟩
  unfold isCacheable
  simp only [hcc, ne_eq, not_false_eq_true, if_true]
  cases stringsContains (Header.Get r.Header "Cache-Control") "max-age" <;>
  cases stringsContains (Header.Get r.Header "Cache-Control") "private" <;>
  cases stringsContains (Header.Get r.Header "Cache-Control") "no-cache" <;>
  cases stringsContains (Header.Get r.Header "Cache-Control") "no-store" <;>
  cases stringsContains (Header.Get r.Header "Cache-Control") "max-age=0" <;>
  simp

/-- C6 amended, at `Cache-Control: max-age=3600, public`. -/
theorem C6_isCacheable_cache_control_witness :
    (isCacheable (responseWith [("Cache-Control", ["max-age=3600, public"])]) = true ↔
      (stringsContains (Header.Get (responseWith
          [("Cache-Control", ["max-age=3600, public"])]).Header "Cache-Control") "max-age"
          = true ∧
       stringsContains (Header.Get (responseWith
          [("Cache-Control", ["max-age=3600, public"])]).Header "Cache-Control") "private"
          = false ∧
       stringsContains (Header.Get (responseWith
          [("Cache-Control", ["max-age=3600, public"])]).Header "Cache-Control") "no-cache"
          = false ∧
       stringsContains (Header.Get (responseWith
          [("Cache-Control", ["max-age=3600, public"])]).Header "Cache-Control") "no-store"
          = false ∧
       stringsContains (Header.Get (responseWith
          [("Cache-Control", ["max-age=3600, public"])]).Header "Cache-Control") "max-age=0"
          = false)) :=
  (C6_isCacheable_cache_control (responseWith [("Cache-Control", ["max-age=3600, public"])])
    (by decide)).1

/-- C7 as stated fails: an item without ETag and Last-Modified, dated `T0`,
with `Cache-Control: max-age=9223372036854775807` has a parseable date and an
integer max-age, and 50 seconds after `T0` the time is before `T0 + N`; but
`date.Unix()+int64(maxAge)` wraps around and `ItemIsFresh` returns
`(false, nil)`. And with `Cache-Control: s-max-age=600, max-age=100`, which
holds the token `max-age=100`, the item is returned fresh 150 seconds after
`T0`: the loop reads the first element that contains `max-age`. -/
theorem C7_counterexample :
    Header.Get (maxAgeItem "max-age=9223372036854775807").Packet.Header "ETag" = "" ∧
    Header.Get (maxAgeItem "max-age=9223372036854775807").Packet.Header "Last-Modified" = "" ∧
    Header.Get (maxAgeItem "max-age=9223372036854775807").Packet.Header "Cache-Control"
      = "max-age=9223372036854775807" ∧
    (sampleEnv (afterT0 50) 200).ParseTime
      (Header.Get (maxAgeItem "max-age=9223372036854775807").Packet.Header "Date") = some T0 ∧
    Atoi "9223372036854775807" = some 9223372036854775807 ∧
    (sampleEnv (afterT0 50) 200).now < (T0 + 9223372036854775807) * 1000000000 ∧
    ItemIsFresh (sampleEnv (afterT0 50) 200) (maxAgeItem "max-age=9223372036854775807")
      = Outcome.ret false none ∧
    stringsSplit (stringsTrimSpace "s-max-age=600, max-age=100") ','
      = ["s-max-age=600", " max-age=100"] ∧
    ¬ ((sampleEnv (afterT0 150) 200).now < (T0 + 100) * 1000000000) ∧
    ItemIsFresh (sampleEnv (afterT0 150) 200) (maxAgeItem "s-max-age=600, max-age=100")
      = Outcome.ret true none := by
  decide

/-- C7 amended: for every cached item whose Cache-Control and Date headers are
both present, whose Date parses to `D`, and whose first comma-separated
Cache-Control element containing `max-age` is a token `<pre>max-age=<text>`
(no `=` in `pre`) with `strconv.Atoi` reading `text` as `N`, where `D + N` fits
in `int64`: at every current time `t`, `ItemIsFresh` returns `(true, nil)` if
`t < D + N` seconds and `(false, nil)` otherwise, whatever the ETag and
Last-Modified headers are. With `N = 100` it is fresh 50 seconds after `D` and
stale 150 seconds after `D`. -/
theorem C7_max_age_fresh (env : Env) (item : CacheItem) (D N : Int) (pre text : String)
    (hcc : Header.Get item.Packet.Header "Cache-Control" ≠ "")
    (hdate : Header.Get item.Packet.Header "Date" ≠ "")
    (hD : env.ParseTime (Header.Get item.Packet.Header "Date") = some D)
    (hfirst : (stringsSplit (stringsTrimSpace
        (Header.Get item.Packet.Header "Cache-Control")) ',').find?
          (fun v => stringsContains v "max-age") = some (pre ++ "max-age=" ++ text))
    (hpre : '=' ∉ pre.data) (hN : Atoi text = some N)
    (hlo : -(2 : Int) ^ 63 ≤ D + N) (hhi : D + N < (2 : Int) ^ 63) :
    ItemIsFresh env item = Outcome.ret (decide (env.now < (D + N) * 1000000000)) none ∧
    ItemIsFresh (sampleEnv (afterT0 50) 200) (maxAgeItem "max-age=100")
      = Outcome.ret true none ∧
    ItemIsFresh (sampleEnv (afterT0 150) 200) (maxAgeItem "max-age=100")
      = Outcome.ret false none := by
  refine ⟨?_, by decide, by decide⟩
  obtain ⟨hc, hs⟩ := max_age_token hpre hN
  unfold ItemIsFresh
  simp only [hcc, hdate, ne_eq, not_false_eq_true, and_self, if_true]
  rw [maxAgeLoop_of_find env _ _ _ hfirst]
  simp only [maxAgeLoop, hc, if_true, hD, hs, hN, addInt64_of_fits D N hlo hhi,
    unixSeconds_lt_iff]
  by_cases hlt : env.now < (D + N) * 1000000000 <;> simp [hlt]

/-- C7 amended, at `Cache-Control: public, max-age=100` dated `T0`, read 50
seconds later. -/
theorem C7_max_age_fresh_witness :
    ItemIsFresh (sampleEnv (afterT0 50) 200) (maxAgeItem "public, max-age=100")
      = Outcome.ret (decide ((sampleEnv (afterT0 50) 200).now < (T0 + 100) * 1000000000))
          none :=
  (C7_max_age_fresh (sampleEnv (afterT0 50) 200) (maxAgeItem "public, max-age=100")
    T0 100 " " "100" (by decide) (by decide) (by decide) (by decide) (by decide) (by decide)
    (by decide) (by decide)).1

/-- C8 as stated fails: an item with `Cache-Control: public` (no max-age
token), a Date, and an Expires an hour after `T0`, without ETag and
Last-Modified, read 50 seconds after `T0`, is before its Expires time, but
`ItemIsFresh` never looks at Expires when Cache-Control and Date are both
present and returns `(false, nil)`. -/
theorem C8_counterexample :
    stringsContains "public" "max-age" = false ∧
    (sampleEnv (afterT0 50) 200).ParseTime
      (Header.Get (itemWith [("Cache-Control", ["public"]), ("Date", [dateT0]),
        ("Expires", [dateT0plus1h])]).Packet.Header "Expires") = some (T0 + 3600) ∧
    (sampleEnv (afterT0 50) 200).now < (T0 + 3600) * 1000000000 ∧
    Header.Get (itemWith [("Cache-Control", ["public"]), ("Date", [dateT0]),
        ("Expires", [dateT0plus1h])]).Packet.Header "ETag" = "" ∧
    Header.Get (itemWith [("Cache-Control", ["public"]), ("Date", [dateT0]),
        ("Expires", [dateT0plus1h])]).Packet.Header "Last-Modified" = "" ∧
    ItemIsFresh (sampleEnv (afterT0 50) 200)
      (itemWith [("Cache-Control", ["public"]), ("Date", [dateT0]),
        ("Expires", [dateT0plus1h])]) = Outcome.ret false none := by
  decide

/-- C8 amended: for every cached item whose Cache-Control header is absent or
whose Date header is absent, that has an Expires header parsing to `E` and no
ETag or Last-Modified header, and for every current time `t`, `ItemIsFresh`
returns fresh (with a nil error) if and only if `t` is strictly before `E`. -/
theorem C8_expires_fresh (env : Env) (item : CacheItem) (E : Int)
    (hno : Header.Get item.Packet.Header "Cache-Control" = "" ∨
      Header.Get item.Packet.Header "Date" = "")
    (hexp : Header.Get item.Packet.Header "Expires" ≠ "")
    (hE : env.ParseTime (Header.Get item.Packet.Header "Expires") = some E)
    (hetag : Header.Get item.Packet.Header "ETag" = "")
    (hlm : Header.Get item.Packet.Header "Last-Modified" = "") :
    ItemIsFresh env item = Outcome.ret (decide (env.now < E * 1000000000)) none := by
  have hnot : ¬ (Header.Get item.Packet.Header "Cache-Control" ≠ "" ∧
      Header.Get item.Packet.Header "Date" ≠ "") := by
    rintro ⟨h1, h2⟩
    rcases hno with h | h
    · exact h1 h
    · exact h2 h
  unfold ItemIsFresh
  simp only [hnot, if_false, hexp, ne_eq, not_false_eq_true, if_true, hE]
  by_cases hlt : env.now < E * 1000000000
  · simp [hlt]
  · simp [hlt, revalidate, hetag, hlm]

/-- C8 amended, at an item with only an Expires header an hour after `T0`,
read 50 seconds after `T0`. -/
theorem C8_expires_fresh_witness :
    ItemIsFresh (sampleEnv (afterT0 50) 200) (itemWith [("Expires", [dateT0plus1h])])
      = Outcome.ret (decide ((sampleEnv (afterT0 50) 200).now < (T0 + 3600) * 1000000000))
          none :=
  C8_expires_fresh (sampleEnv (afterT0 50) 200) (itemWith [("Expires", [dateT0plus1h])])
    (T0 + 3600) (by decide) (by decide) (by decide) (by decide) (by decide)

/-- C9 fails on the code: for an item dated `T0` (a date that parses) whose
Cache-Control is `max-age`, an element with no `=value` part that
`isCacheable` admits into the cache, `strings.Split(val, "=")[1]` is out of
range and `ItemIsFresh` panics instead of returning an error. -/
theorem C9_max_age_without_value_panics :
    isCacheable (maxAgeItem "max-age").Packet = true ∧
    (sampleEnv (afterT0 50) 200).ParseTime
      (Header.Get (maxAgeItem "max-age").Packet.Header "Date") = some T0 ∧
    stringsSplit "max-age" '=' = ["max-age"] ∧
    ItemIsFresh (sampleEnv (afterT0 50) 200) (maxAgeItem "max-age") = Outcome.panic := by
  decide

/-- C10 fails on the code: an item dated `T0` with `Cache-Control: max-age=100`
and an ETag, read 150 seconds after `T0` with an origin that answers 304 to
every request, is returned as `(false, nil)`: the max-age branch returns
before the revalidation. The same item with an elapsed Expires in place of
Cache-Control is revalidated and returned as fresh. -/
theorem C10_elapsed_max_age_skips_revalidation :
    Header.Get (itemWith [("Cache-Control", ["max-age=100"]), ("Date", [dateT0]),
        ("Etag", ["v1"])]).Packet.Header "ETag" = "v1" ∧
    ¬ ((sampleEnv (afterT0 150) 304).now < (T0 + 100) * 1000000000) ∧
    ItemIsFresh (sampleEnv (afterT0 150) 304)
      (itemWith [("Cache-Control", ["max-age=100"]), ("Date", [dateT0]), ("Etag", ["v1"])])
      = Outcome.ret false none ∧
    ItemIsFresh (sampleEnv (afterT0 150) 304)
      (itemWith [("Expires", [dateT0]), ("Date", [dateT0]), ("Etag", ["v1"])])
      = Outcome.ret true none := by
  decide

end WebProxy
